import Mathlib

/-!
Verification of the reddit-auto-mod repository against its specification.

The first part embeds the browser dashboard code (src/FrontEnd/src/services/api.js
and the React components): request-URL construction, the action-endpoint POST
body, and the similarity-score display logic.  The second part models the
Supervisor, Scheduler and IndexManager subsystems described by the spec.
-/

namespace AutoMod

/-- JSON-like values appearing in the frontend request bodies. -/
inductive JsonVal where
  | str (s : String)
  | bool (b : Bool)
deriving DecidableEq

/-- Body of the POST request sent by takePostAction in
src/FrontEnd/src/services/api.js: JSON.stringify of an object literal with the
fields submission_id, approve and item_type. -/
def takePostActionBody (submissionId : String) (approve : Bool) (itemType : String) :
    List (String × JsonVal) :=
  [("submission_id", JsonVal.str submissionId),
   ("approve", JsonVal.bool approve),
   ("item_type", JsonVal.str itemType)]

/-- One-decimal rounding as in JavaScript Number.prototype.toFixed(1): the
nearest multiple of one tenth, ties toward the larger value. -/
def toFixed1 (q : ℚ) : String :=
  let n : Int := Int.floor (q * 10 + 1 / 2)
  let m : Nat := n.natAbs
  let digits := toString (m / 10) ++ "." ++ toString (m % 10)
  if n < 0 then "-" ++ digits else digits

/-- Percentage rendering of a similarity score in the QueueItem component:
(score * 100).toFixed(1) followed by a percent sign. -/
def percentForm (score : ℚ) : String := toFixed1 (score * 100) ++ "%"

/-- Similarity display text of the QueueItem component (App.jsx and the Home
component in src/unnamed/part_000): a conditional on JavaScript truthiness of
item.similarity_data?.similarity_score, so an absent, null or zero score all
render as N/A. -/
def formattedSimilarityScore : Option ℚ → String
  | none => "N/A"
  | some q => if q = 0 then "N/A" else percentForm q

theorem percentForm_ne_NA (q : ℚ) : percentForm q ≠ "N/A" := by
  intro h
  have h2 : (toFixed1 (q * 100)).data ++ ['%'] = ['N', '/', 'A'] := by
    have h1 := congrArg String.data h
    simpa [percentForm, String.data_append] using h1
  have h3 := congrArg List.getLast? h2
  simp [List.getLast?_concat] at h3

/-- First-occurrence substring replacement as in JavaScript String.replace with
a string pattern: only the first occurrence of pat is replaced by repl. -/
def replaceFirst (pat repl : List Char) : List Char → List Char
  | [] => if pat.isPrefixOf [] then repl else []
  | c :: cs =>
    if pat.isPrefixOf (c :: cs) then repl ++ (c :: cs).drop pat.length
    else c :: replaceFirst pat repl cs

/-- Whether pat occurs as a contiguous substring of s. -/
def containsSub (pat : List Char) : List Char → Bool
  | [] => pat.isPrefixOf []
  | c :: cs => pat.isPrefixOf (c :: cs) || containsSub pat cs

theorem replaceFirst_of_not_contains (pat repl : List Char) (s : List Char)
    (h : containsSub pat s = false) : replaceFirst pat repl s = s := by
  induction s with
  | nil =>
    simp only [containsSub] at h
    simp [replaceFirst, h]
  | cons c cs ih =>
    simp only [containsSub, Bool.or_eq_false_iff] at h
    simp [replaceFirst, h.1, ih h.2]

theorem replaceFirst_append_self (pat repl s : List Char) (hpat : pat ≠ []) :
    replaceFirst pat repl (pat ++ s) = repl ++ s := by
  match pat with
  | [] => exact absurd rfl hpat
  | p :: ps =>
    show replaceFirst (p :: ps) repl (p :: (ps ++ s)) = repl ++ s
    rw [replaceFirst, if_pos, ← List.cons_append, List.drop_left]
    exact List.isPrefixOf_iff_prefix.mpr ⟨s, rfl⟩

/-- Hex digit used by percent-encoding (uppercase). -/
def hexDigit (n : Nat) : Char :=
  if n < 10 then Char.ofNat (48 + n) else Char.ofNat (55 + n)

/-- UTF-8 byte sequence of a character. -/
def utf8Bytes (c : Char) : List Nat :=
  let n := c.toNat
  if n < 128 then [n]
  else if n < 2048 then [192 + n / 64, 128 + n % 64]
  else if n < 65536 then [224 + n / 4096, 128 + n / 64 % 64, 128 + n % 64]
  else [240 + n / 262144, 128 + n / 4096 % 64, 128 + n / 64 % 64, 128 + n % 64]

/-- Characters left unescaped by encodeURIComponent: ASCII letters, digits and
the codes 45 95 46 33 126 42 40 41 39. -/
def isUnreservedChar (c : Char) : Bool :=
  let n := c.toNat
  (65 ≤ n && n ≤ 90) || (97 ≤ n && n ≤ 122) || (48 ≤ n && n ≤ 57) ||
    n == 45 || n == 95 || n == 46 || n == 33 || n == 126 || n == 42 ||
    n == 40 || n == 41 || n == 39

/-- encodeURIComponent over a character sequence. -/
def encodeURIComponent (s : List Char) : List Char :=
  s.flatMap (fun c =>
    if isUnreservedChar c then [c]
    else (utf8Bytes c).flatMap (fun b => ['%', hexDigit (b / 16), hexDigit (b % 16)]))

/-- The substring removed from the subreddit name by fetchQueueItems. -/
def rSlashPat : List Char := ['r', '/']

/-- Request URL built by fetchQueueItems in src/FrontEnd/src/services/api.js:
API base plus /api/fetch/, the URI-encoded subreddit with the first occurrence
of r/ removed, the queue_type query parameter, and a limit parameter omitted
for a falsy (absent or zero) limit. -/
def fetchQueueItemsUrl (queueType subreddit : List Char) (limit : Option Nat) : List Char :=
  ("http://127.0.0.1:8000/api/fetch/").toList
    ++ encodeURIComponent (replaceFirst rSlashPat [] subreddit)
    ++ ("?queue_type=").toList ++ encodeURIComponent queueType
    ++ (match limit with
        | some n => if n = 0 then [] else ("&limit=").toList ++ Nat.toDigits 10 n
        | none => [])

/-- C8: the dashboard action endpoint request carries exactly the three fields
submission_id (the document id), approve (a boolean) and item_type: the POST
body built by takePostAction consists of exactly those three values. -/
theorem c8_action_body_exact (submissionId : String) (approve : Bool) (itemType : String) :
    (takePostActionBody submissionId approve itemType).length = 3 ∧
    (takePostActionBody submissionId approve itemType).lookup "submission_id"
        = some (JsonVal.str submissionId) ∧
    (takePostActionBody submissionId approve itemType).lookup "approve"
        = some (JsonVal.bool approve) ∧
    (takePostActionBody submissionId approve itemType).lookup "item_type"
        = some (JsonVal.str itemType) ∧
    (takePostActionBody submissionId approve itemType).map Prod.fst
        = ["submission_id", "approve", "item_type"] := by
  refine ⟨rfl, ?_, ?_, ?_, rfl⟩ <;> simp [takePostActionBody, List.lookup]

/-- C9: the dashboard renders a similarity score of exactly 0 the same as an
absent score: the displayed text is N/A exactly when the score is absent, null
or zero (the check is on falsiness), and is the percentage form of the score
otherwise. -/
theorem c9_zero_score_renders_NA (score : Option ℚ) :
    (formattedSimilarityScore score = "N/A" ↔ score = none ∨ score = some 0) ∧
    ∀ q : ℚ, q ≠ 0 → formattedSimilarityScore (some q) = percentForm q := by
  constructor
  · constructor
    · intro h
      match score with
      | none => exact Or.inl rfl
      | some q =>
        by_cases hq : q = 0
        · exact Or.inr (by rw [hq])
        · exact absurd (by simpa [formattedSimilarityScore, hq] using h)
            (percentForm_ne_NA q)
    · rintro (rfl | rfl) <;> simp [formattedSimilarityScore]
  · intro q hq
    simp [formattedSimilarityScore, hq]

theorem c9_witness :
    formattedSimilarityScore (some 0) = "N/A" ∧
    formattedSimilarityScore none = "N/A" ∧
    formattedSimilarityScore (some (1 / 2)) = percentForm (1 / 2) :=
  ⟨(c9_zero_score_renders_NA (some 0)).1.mpr (Or.inr rfl),
   (c9_zero_score_renders_NA none).1.mpr (Or.inl rfl),
   (c9_zero_score_renders_NA (some (1 / 2))).2 (1 / 2) (by norm_num)⟩

/-- C10: fetchQueueItems normalizes the subreddit by removing the first
occurrence of the substring r/ before building the request URL: for any
subreddit name s with no occurrence of r/, calling with r/ prepended to s and
with s itself produce the identical URL, for every queue type and limit. -/
theorem c10_url_strips_r_slash (queueType s : List Char) (limit : Option Nat)
    (h : containsSub rSlashPat s = false) :
    fetchQueueItemsUrl queueType (rSlashPat ++ s) limit
      = fetchQueueItemsUrl queueType s limit := by
  have h1 : replaceFirst rSlashPat [] (rSlashPat ++ s) = s :=
    replaceFirst_append_self rSlashPat [] s (by simp [rSlashPat])
  have h2 : replaceFirst rSlashPat [] s = s :=
    replaceFirst_of_not_contains rSlashPat [] s h
  simp only [fetchQueueItemsUrl, h1, h2]

theorem c10_witness :
    containsSub rSlashPat ("programming").toList = false ∧
    fetchQueueItemsUrl ("needs-review").toList (rSlashPat ++ ("programming").toList) (some 10)
      = fetchQueueItemsUrl ("needs-review").toList ("programming").toList (some 10) :=
  ⟨by decide, c10_url_strips_r_slash _ _ _ (by decide)⟩

/-!
Supervisor model.  The supervisor, scheduler and index-manager sources of this
repository are not under src/ (only their documentation and the frontend are),
so these components are modelled from the spec.
-/

/-- Modelled from the spec: a ServiceSpec {name, command, port, ...}; only the
fields the supervisor claims depend on are kept. -/
structure ServiceSpec where
  name : String
  port : Nat
deriving DecidableEq

/-- Modelled from the spec: the lifecycle state of a RunningService. -/
inductive SvcState where
  | Starting
  | Healthy
  | Unhealthy
  | Stopped
deriving DecidableEq

/-- Modelled from the spec: a RunningService owns its spec and a state. -/
structure RunningService where
  spec : ServiceSpec
  state : SvcState
deriving DecidableEq

/-- Observable supervisor events during start: spawning a service and stopping
a service, in the order they happen. -/
inductive SupEvent where
  | spawn (name : String)
  | stop (name : String)
deriving DecidableEq

/-- Result of ServiceSupervisor.start. -/
inductive StartResult where
  | ok
  | startupTimeout (name : String)
deriving DecidableEq

/-- Outcome of a start call: the event trace, the returned result, and the
services left running afterwards. -/
structure StartOutcome where
  events : List SupEvent
  result : StartResult
  services : List RunningService
deriving DecidableEq

/-- Modelled from the spec: the start loop of ServiceSupervisor.start (the
ServiceSupervisor source is missing from src/).  Specs are spawned strictly in
the given order; after each spawn the loop blocks until the service is Healthy
or the health timeout expires (the injected health outcome per spec); on a
timeout the already-started services are stopped in reverse start order,
StartupTimeout with the failing spec name is returned, and no started service
is left running. -/
def supStartGo (health : ServiceSpec → Bool) (started : List RunningService) :
    List ServiceSpec → StartOutcome
  | [] => ⟨[], StartResult.ok, started.reverse⟩
  | s :: rest =>
    if health s then
      let o := supStartGo health (⟨s, SvcState.Healthy⟩ :: started) rest
      ⟨SupEvent.spawn s.name :: o.events, o.result, o.services⟩
    else
      ⟨SupEvent.spawn s.name :: started.map (fun r => SupEvent.stop r.spec.name),
       StartResult.startupTimeout s.name, []⟩

/-- ServiceSupervisor.start on an ordered sequence of specs. -/
def supStart (health : ServiceSpec → Bool) (specs : List ServiceSpec) : StartOutcome :=
  supStartGo health [] specs

theorem supStartGo_timeout (health : ServiceSpec → Bool) (pre : List ServiceSpec)
    (started : List RunningService) (sk : ServiceSpec) (suf : List ServiceSpec)
    (hpre : ∀ s ∈ pre, health s = true) (hfail : health sk = false) :
    supStartGo health started (pre ++ sk :: suf) =
      ⟨pre.map (fun s => SupEvent.spawn s.name) ++ SupEvent.spawn sk.name ::
         (pre.reverse.map (fun s => RunningService.mk s SvcState.Healthy) ++ started).map
           (fun r => SupEvent.stop r.spec.name),
       StartResult.startupTimeout sk.name, []⟩ := by
  induction pre generalizing started with
  | nil =>
    simp [supStartGo, hfail]
  | cons p pre ih =>
    have hp : health p = true := hpre p (List.mem_cons_self p pre)
    have hrest : ∀ s ∈ pre, health s = true := fun s hs => hpre s (List.mem_cons_of_mem p hs)
    simp only [List.cons_append, supStartGo, hp, if_pos, List.append_eq]
    rw [ih (⟨p, SvcState.Healthy⟩ :: started) hrest]
    simp [List.map_append]

theorem supStartGo_ok (health : ServiceSpec → Bool) (specs : List ServiceSpec)
    (started : List RunningService) (hall : ∀ s ∈ specs, health s = true) :
    supStartGo health started specs =
      ⟨specs.map (fun s => SupEvent.spawn s.name), StartResult.ok,
       started.reverse ++ specs.map (fun s => RunningService.mk s SvcState.Healthy)⟩ := by
  induction specs generalizing started with
  | nil => simp [supStartGo]
  | cons s rest ih =>
    have hs : health s = true := hall s (List.mem_cons_self s rest)
    have hrest : ∀ t ∈ rest, health t = true := fun t ht => hall t (List.mem_cons_of_mem s ht)
    simp only [supStartGo, hs, if_pos]
    rw [ih (⟨s, SvcState.Healthy⟩ :: started) hrest]
    simp

/-- C1: for every ordered sequence of specs, services are spawned strictly in
the given order; if the k-th spec (the head of the suffix after a healthy
prefix) fails to become Healthy within the timeout, the already-started
services are stopped in strict reverse order, start returns StartupTimeout
naming that spec, and no started service is left running. -/
theorem c1_startup_timeout_rollback (health : ServiceSpec → Bool)
    (specs pre suf : List ServiceSpec) (sk : ServiceSpec)
    (hsplit : specs = pre ++ sk :: suf)
    (hpre : ∀ s ∈ pre, health s = true) (hfail : health sk = false) :
    (supStart health specs).result = StartResult.startupTimeout sk.name ∧
    (supStart health specs).events =
      (pre ++ [sk]).map (fun s => SupEvent.spawn s.name) ++
        pre.reverse.map (fun s => SupEvent.stop s.name) ∧
    (supStart health specs).services = [] := by
  subst hsplit
  rw [supStart, supStartGo_timeout health pre [] sk suf hpre hfail]
  refine ⟨rfl, ?_, rfl⟩
  simp [List.map_map, Function.comp]

theorem c1_witness :
    (∀ s ∈ [ServiceSpec.mk "Text Summarization" 8002, ServiceSpec.mk "Rule Violation" 8003],
      (fun t : ServiceSpec => decide (t.port ≠ 8004)) s = true) ∧
    ((fun t : ServiceSpec => decide (t.port ≠ 8004)) (ServiceSpec.mk "Post Similarity" 8004)
      = false) ∧
    (supStart (fun t : ServiceSpec => decide (t.port ≠ 8004))
        [ServiceSpec.mk "Text Summarization" 8002, ServiceSpec.mk "Rule Violation" 8003,
         ServiceSpec.mk "Post Similarity" 8004, ServiceSpec.mk "Data Processing API" 8001]).result
      = StartResult.startupTimeout "Post Similarity" ∧
    (supStart (fun t : ServiceSpec => decide (t.port ≠ 8004))
        [ServiceSpec.mk "Text Summarization" 8002, ServiceSpec.mk "Rule Violation" 8003,
         ServiceSpec.mk "Post Similarity" 8004, ServiceSpec.mk "Data Processing API" 8001]).events
      = [SupEvent.spawn "Text Summarization", SupEvent.spawn "Rule Violation",
         SupEvent.spawn "Post Similarity", SupEvent.stop "Rule Violation",
         SupEvent.stop "Text Summarization"] ∧
    (supStart (fun t : ServiceSpec => decide (t.port ≠ 8004))
        [ServiceSpec.mk "Text Summarization" 8002, ServiceSpec.mk "Rule Violation" 8003,
         ServiceSpec.mk "Post Similarity" 8004, ServiceSpec.mk "Data Processing API" 8001]).services
      = [] := by
  have h := c1_startup_timeout_rollback (fun t : ServiceSpec => decide (t.port ≠ 8004))
    [ServiceSpec.mk "Text Summarization" 8002, ServiceSpec.mk "Rule Violation" 8003,
     ServiceSpec.mk "Post Similarity" 8004, ServiceSpec.mk "Data Processing API" 8001]
    [ServiceSpec.mk "Text Summarization" 8002, ServiceSpec.mk "Rule Violation" 8003]
    [ServiceSpec.mk "Data Processing API" 8001] (ServiceSpec.mk "Post Similarity" 8004)
    rfl (by decide) (by decide)
  exact ⟨by decide, by decide, h.1, by rw [h.2.1]; rfl, h.2.2⟩

/-- Modelled from the spec: status() maps each service name to its state. -/
def statusReport (svcs : List RunningService) : List (String × SvcState) :=
  svcs.map (fun r => (r.spec.name, r.state))

/-- Modelled from the spec: an all-healthy report is made exactly when every
running service has state Healthy. -/
def allHealthyReported (svcs : List RunningService) : Bool :=
  svcs.all (fun r => r.state == SvcState.Healthy)

/-- The four-service topology of the start scenario. -/
def fourSpecs : List ServiceSpec :=
  [ServiceSpec.mk "Summarizer" 8002, ServiceSpec.mk "RuleViolation" 8003,
   ServiceSpec.mk "Similarity" 8004, ServiceSpec.mk "DataAPI" 8001]

/-- C6: an all-healthy status is never reported while any running service has
a state other than Healthy; and when start of the four-service topology
succeeds with every service healthy within the timeout, status() reports all
four services as Healthy. -/
theorem c6_all_healthy_consistent :
    (∀ svcs : List RunningService, allHealthyReported svcs = true →
      ∀ r ∈ svcs, r.state = SvcState.Healthy) ∧
    (∀ health : ServiceSpec → Bool, (∀ s ∈ fourSpecs, health s = true) →
      (supStart health fourSpecs).result = StartResult.ok ∧
      statusReport (supStart health fourSpecs).services =
        [("Summarizer", SvcState.Healthy), ("RuleViolation", SvcState.Healthy),
         ("Similarity", SvcState.Healthy), ("DataAPI", SvcState.Healthy)]) := by
  constructor
  · intro svcs h r hr
    have := List.all_eq_true.mp h r hr
    simpa using this
  · intro health hall
    rw [supStart, supStartGo_ok health fourSpecs [] hall]
    exact ⟨rfl, rfl⟩

theorem c6_witness :
    (∀ s ∈ fourSpecs, (fun _ : ServiceSpec => true) s = true) ∧
    allHealthyReported [RunningService.mk (ServiceSpec.mk "DataAPI" 8001) SvcState.Healthy]
      = true ∧
    RunningService.state (RunningService.mk (ServiceSpec.mk "DataAPI" 8001) SvcState.Healthy)
      = SvcState.Healthy ∧
    (supStart (fun _ : ServiceSpec => true) fourSpecs).result = StartResult.ok ∧
    statusReport (supStart (fun _ : ServiceSpec => true) fourSpecs).services =
      [("Summarizer", SvcState.Healthy), ("RuleViolation", SvcState.Healthy),
       ("Similarity", SvcState.Healthy), ("DataAPI", SvcState.Healthy)] :=
  ⟨by decide, by decide,
   c6_all_healthy_consistent.1
     [RunningService.mk (ServiceSpec.mk "DataAPI" 8001) SvcState.Healthy] (by decide)
     (RunningService.mk (ServiceSpec.mk "DataAPI" 8001) SvcState.Healthy) (by decide),
   (c6_all_healthy_consistent.2 (fun _ => true) (by decide)).1,
   (c6_all_healthy_consistent.2 (fun _ => true) (by decide)).2⟩

/-- State of the interrupt handler guarding shutdownAll. -/
structure InterruptState where
  shutdownStarted : Bool
  shutdownAllCalls : Nat
deriving DecidableEq

/-- Modelled from the spec: an external interrupt triggers shutdownAll exactly
once even if signaled repeatedly (idempotence guard): a repeated signal after
the guard is set has no effect. -/
def onInterrupt (st : InterruptState) : InterruptState :=
  if st.shutdownStarted then st
  else ⟨true, st.shutdownAllCalls + 1⟩

/-- Delivering n external interrupt signals to a freshly started supervisor. -/
def deliverInterrupts : Nat → InterruptState
  | 0 => ⟨false, 0⟩
  | n + 1 => onInterrupt (deliverInterrupts n)

theorem deliverInterrupts_succ (n : Nat) : deliverInterrupts (n + 1) = ⟨true, 1⟩ := by
  induction n with
  | zero => rfl
  | succ m ih => rw [deliverInterrupts, ih]; rfl

/-- C7: for every number of external interrupt signals delivered to the
supervisor, shutdownAll is triggered exactly once as soon as at least one
signal arrives — repeated signals after the first have no additional effect. -/
theorem c7_interrupt_idempotent (n : Nat) :
    (deliverInterrupts n).shutdownAllCalls = (if n = 0 then 0 else 1) ∧
    onInterrupt (onInterrupt (deliverInterrupts n)) = onInterrupt (deliverInterrupts n) := by
  constructor
  · match n with
    | 0 => rfl
    | m + 1 => rw [deliverInterrupts_succ]; rfl
  · match n with
    | 0 => rfl
    | m + 1 => rw [deliverInterrupts_succ]; rfl

/-!
Scheduler model (the Scheduler source of this repository is not under src/).
-/

/-- Modelled from the spec: the mutable part of a ScheduleEntry, its
last-fired-date, together with the number of callback invocations so far. -/
structure SchedState where
  lastFired : Option Nat
  fireCount : Nat
deriving DecidableEq

/-- Modelled from the spec: one wake-up of the scheduler loop at (date, time):
the callback fires exactly when the current date differs from last-fired-date
and the current time is at or past timeOfDay, after which last-fired-date is
updated to the current date. -/
def schedTick (timeOfDay : Nat) (st : SchedState) (t : Nat × Nat) : SchedState :=
  if st.lastFired ≠ some t.1 ∧ timeOfDay ≤ t.2 then ⟨some t.1, st.fireCount + 1⟩ else st

/-- The ticks of one calendar day d observed at the given times. -/
def dayTicks (d : Nat) (ts : List Nat) : List (Nat × Nat) :=
  ts.map (fun u => (d, u))

/-- Running the scheduler loop from a fresh ScheduleEntry over a tick list. -/
def schedRun (timeOfDay : Nat) (ticks : List (Nat × Nat)) : SchedState :=
  ticks.foldl (schedTick timeOfDay) ⟨none, 0⟩

theorem schedDay_after_fire (tod d : Nat) (ts : List Nat) (st : SchedState)
    (hd : st.lastFired = some d) :
    (dayTicks d ts).foldl (schedTick tod) st = st := by
  induction ts with
  | nil => rfl
  | cons t ts ih =>
    have hstep : schedTick tod st (d, t) = st := by
      simp [schedTick, hd]
    simp only [dayTicks, List.map_cons, List.foldl_cons, hstep]
    exact ih

theorem schedDay_fires (tod d : Nat) (ts : List Nat) (st : SchedState)
    (hne : st.lastFired ≠ some d) (hq : ts.any (fun u => decide (tod ≤ u)) = true) :
    (dayTicks d ts).foldl (schedTick tod) st = ⟨some d, st.fireCount + 1⟩ := by
  induction ts with
  | nil => simp at hq
  | cons t ts ih =>
    by_cases ht : tod ≤ t
    · have hstep : schedTick tod st (d, t) = ⟨some d, st.fireCount + 1⟩ := by
        simp [schedTick, hne, ht]
      simp only [dayTicks, List.map_cons, List.foldl_cons, hstep]
      exact schedDay_after_fire tod d ts _ rfl
    · have hstep : schedTick tod st (d, t) = st := by
        simp [schedTick, ht]
      have hq2 : ts.any (fun u => decide (tod ≤ u)) = true := by
        simp only [List.any_cons, Bool.or_eq_true] at hq
        rcases hq with h1 | h2
        · exact absurd (of_decide_eq_true h1) ht
        · exact h2
      simp only [dayTicks, List.map_cons, List.foldl_cons, hstep]
      exact ih hq2

theorem schedDay_no_fire (tod d : Nat) (ts : List Nat) (st : SchedState)
    (hq : ts.any (fun u => decide (tod ≤ u)) = false) :
    (dayTicks d ts).foldl (schedTick tod) st = st := by
  induction ts with
  | nil => rfl
  | cons t ts ih =>
    simp only [List.any_cons, Bool.or_eq_false_iff] at hq
    have ht : ¬ tod ≤ t := of_decide_eq_false hq.1
    have hstep : schedTick tod st (d, t) = st := by
      simp [schedTick, ht]
    simp only [dayTicks, List.map_cons, List.foldl_cons, hstep]
    exact ih hq.2

theorem schedDays_count (tod : Nat) (days : List (Nat × List Nat)) (st : SchedState)
    (hpw : List.Pairwise (fun a b => a.1 < b.1) days)
    (hlt : ∀ p ∈ days, ∀ d : Nat, st.lastFired = some d → d < p.1) :
    ((days.flatMap (fun p => dayTicks p.1 p.2)).foldl (schedTick tod) st).fireCount
        = st.fireCount
          + (days.filter (fun p => p.2.any (fun u => decide (tod ≤ u)))).length ∧
    (((days.flatMap (fun p => dayTicks p.1 p.2)).foldl (schedTick tod) st).lastFired
        = st.lastFired ∨
      ∃ p ∈ days,
        ((days.flatMap (fun p => dayTicks p.1 p.2)).foldl (schedTick tod) st).lastFired
          = some p.1) := by
  induction days generalizing st with
  | nil => exact ⟨rfl, Or.inl rfl⟩
  | cons p rest ih =>
    rcases List.pairwise_cons.mp hpw with ⟨hplt, hpw2⟩
    simp only [List.flatMap_cons, List.foldl_append]
    by_cases hq : p.2.any (fun u => decide (tod ≤ u)) = true
    · have hne : st.lastFired ≠ some p.1 := by
        intro hc
        exact lt_irrefl p.1 (hlt p (List.mem_cons_self p rest) p.1 hc)
      rw [schedDay_fires tod p.1 p.2 st hne hq]
      have hlt2 : ∀ q ∈ rest, ∀ d : Nat,
          (SchedState.mk (some p.1) (st.fireCount + 1)).lastFired = some d → d < q.1 := by
        intro q hq2 d hd
        have hdp : p.1 = d := by simpa using hd
        rw [← hdp]
        exact hplt q hq2
      obtain ⟨hcount, hlast⟩ := ih (SchedState.mk (some p.1) (st.fireCount + 1)) hpw2 hlt2
      constructor
      · rw [hcount]
        simp [List.filter_cons, hq, Nat.add_comm, Nat.add_assoc, Nat.add_left_comm]
      · rcases hlast with h | ⟨q, hq3, h⟩
        · exact Or.inr ⟨p, List.mem_cons_self p rest, by rw [h]⟩
        · exact Or.inr ⟨q, List.mem_cons_of_mem p hq3, h⟩
    · have hq0 : p.2.any (fun u => decide (tod ≤ u)) = false := by
        exact Bool.eq_false_iff.mpr hq
      rw [schedDay_no_fire tod p.1 p.2 st hq0]
      have hlt2 : ∀ q ∈ rest, ∀ d : Nat, st.lastFired = some d → d < q.1 :=
        fun q hq2 d hd => hlt q (List.mem_cons_of_mem p hq2) d hd
      obtain ⟨hcount, hlast⟩ := ih st hpw2 hlt2
      constructor
      · rw [hcount]
        simp [List.filter_cons, hq0]
      · rcases hlast with h | ⟨q, hq3, h⟩
        · exact Or.inl h
        · exact Or.inr ⟨q, List.mem_cons_of_mem p hq3, h⟩

/-- C4: for a chronologically ordered run of days (strictly increasing dates)
with arbitrarily many ticks per day, the callback fires at most once per
calendar day — the invocation count equals the number of days that had a tick
at or past timeOfDay, never a backlog — and, when timeOfDay has passed on each
day, the invocation count equals the number of distinct calendar days elapsed,
regardless of tick frequency. -/
theorem c4_once_per_day (tod : Nat) (days : List (Nat × List Nat))
    (hpw : List.Pairwise (fun a b => a.1 < b.1) days) :
    (schedRun tod (days.flatMap (fun p => dayTicks p.1 p.2))).fireCount
        = (days.filter (fun p => p.2.any (fun u => decide (tod ≤ u)))).length ∧
    ((∀ p ∈ days, p.2.any (fun u => decide (tod ≤ u)) = true) →
      (schedRun tod (days.flatMap (fun p => dayTicks p.1 p.2))).fireCount
        = days.length) := by
  have h0 : ∀ p ∈ days, ∀ d : Nat,
      (SchedState.mk (none : Option Nat) 0).lastFired = some d → d < p.1 := by
    intro p hp d hd
    exact absurd hd (by simp)
  have h := (schedDays_count tod days ⟨none, 0⟩ hpw h0).1
  constructor
  · rw [schedRun, h]
    simp
  · intro hcover
    rw [schedRun, h, List.filter_eq_self.mpr hcover]
    simp

theorem c4_witness :
    List.Pairwise (fun a b : Nat × List Nat => a.1 < b.1) [(0, [0, 610, 620]), (1, [700])] ∧
    (∀ p ∈ [((0 : Nat), [0, 610, 620]), (1, [700])],
      p.2.any (fun u => decide (600 ≤ u)) = true) ∧
    (schedRun 600
      ([((0 : Nat), [(0 : Nat), 610, 620]), (1, [700])].flatMap
        (fun p => dayTicks p.1 p.2))).fireCount = 2 :=
  ⟨by decide, by decide,
   (c4_once_per_day 600 [(0, [0, 610, 620]), (1, [700])] (by decide)).2 (by decide)⟩

/-!
IndexManager model (the IndexManager source of this repository is not under
src/).  Embedding vectors are rationals; the EmbeddingClient is an external
collaborator and enters as a function parameter.
-/

/-- A fixed-width embedding vector. -/
abbrev Vec := List ℚ

/-- A document identifier. -/
abbrev DocId := Nat

/-- A document as the IndexManager receives it: (id, text). -/
abbrev Doc := DocId × String

/-- An IndexPartitionKey: (collection-id, content-type). -/
abbrev IdxKey := String × String

/-- Modelled from the spec: an IndexPartition keeps an ordered sequence of
(document-id, vector) pairs, ordered by insertion. -/
structure IndexPartition where
  vectors : List (DocId × Vec)
deriving DecidableEq

/-- Modelled from the spec: merging one submitted document into the ordered
vector sequence: a repeated document-id replaces the old entry
(last-write-wins on text) and takes a fresh insertion position at the end. -/
def mergeDoc (emb : String → Vec) (vs : List (DocId × Vec)) (d : Doc) :
    List (DocId × Vec) :=
  vs.filter (fun v => v.1 != d.1) ++ [(d.1, emb d.2)]

/-- Merging a batch of submitted documents in submission order. -/
def mergeDocs (emb : String → Vec) (vs : List (DocId × Vec)) (docs : List Doc) :
    List (DocId × Vec) :=
  docs.foldl (mergeDoc emb) vs

/-- Modelled from the spec: build embeds each document and constructs a fresh
IndexPartition, replacing any prior one for the key. -/
def buildPartition (emb : String → Vec) (docs : List Doc) : IndexPartition :=
  ⟨mergeDocs emb [] docs⟩

/-- Modelled from the spec: update embeds only the new documents and merges
them into the existing structure; with no existing partition it behaves like
build. -/
def updatePartition (emb : String → Vec) (p : Option IndexPartition) (docs : List Doc) :
    IndexPartition :=
  match p with
  | none => buildPartition emb docs
  | some part => ⟨mergeDocs emb part.vectors docs⟩

/-- One call of the build/update interface on a single key. -/
inductive IdxCall where
  | build (docs : List Doc)
  | update (docs : List Doc)

/-- Effect of one call on the partition stored for the key. -/
def applyCall (emb : String → Vec) (st : Option IndexPartition) :
    IdxCall → Option IndexPartition
  | IdxCall.build docs => some (buildPartition emb docs)
  | IdxCall.update docs => some (updatePartition emb st docs)

/-- Effect of a finite sequence of calls on a key with no prior partition. -/
def applyCalls (emb : String → Vec) (calls : List IdxCall) : Option IndexPartition :=
  calls.foldl (applyCall emb) none

/-- The vector set held for a key (empty when no partition exists). -/
def vectorSet : Option IndexPartition → List (DocId × Vec)
  | none => []
  | some p => p.vectors

/-- The documents submitted by one call. -/
def callDocs : IdxCall → List Doc
  | IdxCall.build docs => docs
  | IdxCall.update docs => docs

/-- All documents submitted across a sequence of calls, in submission order. -/
def allDocs (calls : List IdxCall) : List Doc :=
  calls.flatMap callDocs

/-- Last-write-wins deduplication step, following the claim wording: a
repeated document-id keeps only the last submission. -/
def lwwStep (ds : List Doc) (d : Doc) : List Doc :=
  ds.filter (fun e => e.1 != d.1) ++ [d]

/-- Union of submitted documents with repeated ids deduplicated keeping the
text of the last submission. -/
def lwwDocs (docs : List Doc) : List Doc :=
  docs.foldl lwwStep []

/-- The documents submitted by the most recent build and all later updates
(all submitted documents when no build occurred), starting from acc. -/
def docsSinceLastBuildFrom (acc : List Doc) (calls : List IdxCall) : List Doc :=
  calls.foldl (fun acc c => match c with
    | IdxCall.build ds => ds
    | IdxCall.update ds => acc ++ ds) acc

/-- The documents submitted by the most recent build and all later updates. -/
def docsSinceLastBuild (calls : List IdxCall) : List Doc :=
  docsSinceLastBuildFrom [] calls

/-- Pairing a submitted document with its embedded vector. -/
def embedDoc (emb : String → Vec) (d : Doc) : DocId × Vec :=
  (d.1, emb d.2)

theorem filter_map_embedDoc (emb : String → Vec) (ds : List Doc) (i : DocId) :
    (ds.map (embedDoc emb)).filter (fun v => v.1 != i)
      = (ds.filter (fun e => e.1 != i)).map (embedDoc emb) := by
  induction ds with
  | nil => rfl
  | cons d ds ih =>
    by_cases hd : d.1 = i
    · simp [embedDoc, List.filter_cons, hd, ih]
    · simp [embedDoc, List.filter_cons, hd, ih]

theorem mergeDoc_map (emb : String → Vec) (ds : List Doc) (d : Doc) :
    mergeDoc emb (ds.map (embedDoc emb)) d = (lwwStep ds d).map (embedDoc emb) := by
  rw [mergeDoc, lwwStep, List.map_append, filter_map_embedDoc]
  rfl

theorem mergeDocs_map (emb : String → Vec) (docs : List Doc) (ds : List Doc) :
    mergeDocs emb (ds.map (embedDoc emb)) docs
      = (docs.foldl lwwStep ds).map (embedDoc emb) := by
  induction docs generalizing ds with
  | nil => rfl
  | cons d docs ih =>
    rw [mergeDocs, List.foldl_cons, mergeDoc_map, List.foldl_cons, ← mergeDocs, ih]

theorem lwwDocs_append (acc ds : List Doc) :
    lwwDocs (acc ++ ds) = ds.foldl lwwStep (lwwDocs acc) := by
  rw [lwwDocs, List.foldl_append, lwwDocs]

theorem applyCalls_from (emb : String → Vec) (calls : List IdxCall) (ds : List Doc) :
    calls.foldl (applyCall emb) (some ⟨(lwwDocs ds).map (embedDoc emb)⟩)
      = some ⟨(lwwDocs (docsSinceLastBuildFrom ds calls)).map (embedDoc emb)⟩ := by
  induction calls generalizing ds with
  | nil => rfl
  | cons c cs ih =>
    match c with
    | IdxCall.build d =>
      rw [List.foldl_cons]
      have hstep : applyCall emb (some ⟨(lwwDocs ds).map (embedDoc emb)⟩) (IdxCall.build d)
          = some ⟨(lwwDocs d).map (embedDoc emb)⟩ := by
        show some (buildPartition emb d) = _
        rw [buildPartition]
        have h0 : mergeDocs emb (([] : List Doc).map (embedDoc emb)) d
            = (d.foldl lwwStep []).map (embedDoc emb) := mergeDocs_map emb d []
        simpa [lwwDocs] using congrArg (fun l => some (IndexPartition.mk l)) h0
      rw [hstep, ih d]
      rfl
    | IdxCall.update d =>
      rw [List.foldl_cons]
      have hstep : applyCall emb (some ⟨(lwwDocs ds).map (embedDoc emb)⟩) (IdxCall.update d)
          = some ⟨(lwwDocs (ds ++ d)).map (embedDoc emb)⟩ := by
        show some (updatePartition emb _ d) = _
        rw [updatePartition]
        have h0 : mergeDocs emb ((lwwDocs ds).map (embedDoc emb)) d
            = (d.foldl lwwStep (lwwDocs ds)).map (embedDoc emb) := mergeDocs_map emb d (lwwDocs ds)
        rw [lwwDocs_append]
        simpa using congrArg (fun l => some (IndexPartition.mk l)) h0
      rw [hstep, ih (ds ++ d)]
      rfl

/-- C2 counterexample: the claim as stated — the vector set after any sequence
of build and update calls equals the LWW union of all documents submitted
across those calls — is false: a second build replaces the partition, so the
first build's documents are dropped.  Concrete input: build [(1, a)] then
build []. -/
theorem c2_counterexample :
    ¬ (∀ x : DocId × Vec,
        x ∈ vectorSet (applyCalls (fun _ => ([] : Vec))
            [IdxCall.build [(1, "a")], IdxCall.build []])
          ↔ x ∈ (lwwDocs (allDocs [IdxCall.build [(1, "a")], IdxCall.build []])).map
              (embedDoc (fun _ => ([] : Vec)))) := by
  intro h
  have h1 := (h (1, ([] : Vec))).mpr (by decide)
  exact absurd h1 (by decide)

/-- C2 (amended): for any finite sequence of build and update calls on a single
key, the resulting vector set equals the union of the documents submitted by
the most recent build and all subsequent updates (all submitted documents when
no build occurred), with repeated document-ids deduplicated keeping the text of
the last submission; update on a key with no existing partition behaves exactly
like build. -/
theorem c2_lww_since_last_build (emb : String → Vec) (calls : List IdxCall) :
    vectorSet (applyCalls emb calls)
      = (lwwDocs (docsSinceLastBuild calls)).map (embedDoc emb) ∧
    ∀ ds : List Doc, updatePartition emb none ds = buildPartition emb ds := by
  refine ⟨?_, fun ds => rfl⟩
  match calls with
  | [] => rfl
  | c :: cs =>
    have hfirst : applyCall emb none c
        = some ⟨(lwwDocs (callDocs c)).map (embedDoc emb)⟩ := by
      match c with
      | IdxCall.build d =>
        show some (buildPartition emb d) = _
        rw [buildPartition, callDocs]
        have h0 : mergeDocs emb (([] : List Doc).map (embedDoc emb)) d
            = (d.foldl lwwStep []).map (embedDoc emb) := mergeDocs_map emb d []
        simpa [lwwDocs] using congrArg (fun l => some (IndexPartition.mk l)) h0
      | IdxCall.update d =>
        show some (updatePartition emb none d) = _
        rw [updatePartition, buildPartition, callDocs]
        have h0 : mergeDocs emb (([] : List Doc).map (embedDoc emb)) d
            = (d.foldl lwwStep []).map (embedDoc emb) := mergeDocs_map emb d []
        simpa [lwwDocs] using congrArg (fun l => some (IndexPartition.mk l)) h0
    have hrun : applyCalls emb (c :: cs)
        = some ⟨(lwwDocs (docsSinceLastBuildFrom (callDocs c) cs)).map (embedDoc emb)⟩ := by
      rw [applyCalls, List.foldl_cons, hfirst, applyCalls_from]
    have hdocs : docsSinceLastBuild (c :: cs) = docsSinceLastBuildFrom (callDocs c) cs := by
      match c with
      | IdxCall.build d => rfl
      | IdxCall.update d =>
        show docsSinceLastBuildFrom ([] ++ d) cs = _
        rw [List.nil_append]
        rfl
    rw [hrun, hdocs]
    rfl

/-- A query result: matched document id and similarity score. -/
structure SimilarityResult where
  docId : DocId
  score : ℚ
deriving DecidableEq

/-- Modelled from the spec: the cosine-similarity score lies in [0, 1]; the
numeric similarity itself is external math, abstracted as a parameter, and the
spec's score range is modelled by clamping into [0, 1]. -/
def clamp01 (q : ℚ) : ℚ := min 1 (max 0 q)

/-- Insertion into a list sorted by descending score: the new element goes
before the first strictly lower score, so an earlier-inserted element keeps
its place among equal scores. -/
def insertRanked (a : Nat × DocId × ℚ) : List (Nat × DocId × ℚ) → List (Nat × DocId × ℚ)
  | [] => [a]
  | b :: l => if b.2.2 ≤ a.2.2 then a :: b :: l else b :: insertRanked a l

/-- Stable sort by descending score. -/
def sortRanked : List (Nat × DocId × ℚ) → List (Nat × DocId × ℚ)
  | [] => []
  | x :: xs => insertRanked x (sortRanked xs)

/-- Modelled from the spec: query embeds the text, scores every stored vector,
sorts highest similarity first with ties broken by earlier insertion, and
returns the best k.  Each entry is annotated with its insertion position in
the partition so the tie-break order can be stated. -/
def annotatedQuery (sim : Vec → Vec → ℚ) (emb : String → Vec) (part : IndexPartition)
    (text : String) (k : Nat) : List (Nat × DocId × ℚ) :=
  (sortRanked ((part.vectors.enum).map
    (fun p => (p.1, p.2.1, clamp01 (sim (emb text) p.2.2))))).take k

/-- Query against an optional partition: a missing partition yields the empty
sequence, never an error. -/
def queryPartition (sim : Vec → Vec → ℚ) (emb : String → Vec)
    (p : Option IndexPartition) (text : String) (k : Nat) : List SimilarityResult :=
  match p with
  | none => []
  | some part => (annotatedQuery sim emb part text k).map (fun t => ⟨t.2.1, t.2.2⟩)

/-- The IndexManager owns the set of partitions, one per key. -/
abbrev IndexManager := List (IdxKey × IndexPartition)

/-- The partition stored for a key, if any. -/
def lookupPartition (m : IndexManager) (k : IdxKey) : Option IndexPartition :=
  (m.find? (fun p => p.1 == k)).map (fun p => p.2)

/-- IndexManager.query. -/
def imQuery (sim : Vec → Vec → ℚ) (emb : String → Vec) (m : IndexManager)
    (key : IdxKey) (text : String) (k : Nat) : List SimilarityResult :=
  queryPartition sim emb (lookupPartition m key) text k

/-- Result order required of query: strictly higher score first, equal scores
ordered by earlier insertion position. -/
def RankBefore (a b : Nat × DocId × ℚ) : Prop :=
  b.2.2 < a.2.2 ∨ (a.2.2 = b.2.2 ∧ a.1 < b.1)

theorem mem_insertRanked (a x : Nat × DocId × ℚ) (l : List (Nat × DocId × ℚ)) :
    x ∈ insertRanked a l ↔ x = a ∨ x ∈ l := by
  induction l with
  | nil => simp [insertRanked]
  | cons b l ih =>
    by_cases hb : b.2.2 ≤ a.2.2
    · simp [insertRanked, hb]
    · simp only [insertRanked, if_neg hb, List.mem_cons, ih]
      tauto

theorem pairwise_insertRanked (a : Nat × DocId × ℚ) (l : List (Nat × DocId × ℚ))
    (hl : List.Pairwise RankBefore l) (ha : ∀ b ∈ l, a.1 < b.1) :
    List.Pairwise RankBefore (insertRanked a l) := by
  induction l with
  | nil => simp [insertRanked]
  | cons b l ih =>
    rcases List.pairwise_cons.mp hl with ⟨hbl, hl2⟩
    by_cases hb : b.2.2 ≤ a.2.2
    · rw [insertRanked, if_pos hb]
      refine List.pairwise_cons.mpr ⟨?_, hl⟩
      intro x hx
      rcases List.mem_cons.mp hx with rfl | hx2
      · rcases lt_or_eq_of_le hb with hlt | heq
        · exact Or.inl hlt
        · exact Or.inr ⟨heq.symm, ha x (List.mem_cons_self x l)⟩
      · have hbx := hbl x hx2
        have hxa : x.2.2 ≤ a.2.2 := by
          rcases hbx with hlt | ⟨heq, _⟩
          · exact le_trans (le_of_lt hlt) hb
          · exact heq ▸ hb
        rcases lt_or_eq_of_le hxa with hlt | heq
        · exact Or.inl hlt
        · exact Or.inr ⟨heq.symm, ha x (List.mem_cons_of_mem b hx2)⟩
    · rw [insertRanked, if_neg hb]
      refine List.pairwise_cons.mpr ⟨?_, ih hl2 (fun x hx => ha x (List.mem_cons_of_mem b hx))⟩
      intro x hx
      rcases (mem_insertRanked a x l).mp hx with rfl | hx2
      · exact Or.inl (lt_of_not_le hb)
      · exact hbl x hx2

theorem mem_sortRanked (x : Nat × DocId × ℚ) (l : List (Nat × DocId × ℚ)) :
    x ∈ sortRanked l ↔ x ∈ l := by
  induction l with
  | nil => simp [sortRanked]
  | cons b l ih =>
    rw [sortRanked, mem_insertRanked]
    simp [ih]

theorem pairwise_sortRanked (l : List (Nat × DocId × ℚ))
    (hidx : List.Pairwise (fun a b => a.1 < b.1) l) :
    List.Pairwise RankBefore (sortRanked l) := by
  induction l with
  | nil => exact List.Pairwise.nil
  | cons x xs ih =>
    rcases List.pairwise_cons.mp hidx with ⟨hx, hxs⟩
    rw [sortRanked]
    exact pairwise_insertRanked x (sortRanked xs) (ih hxs)
      (fun b hb => hx b ((mem_sortRanked b xs).mp hb))

theorem le_fst_of_mem_enumFrom {α : Type} (n : Nat) (l : List α) (x : Nat × α)
    (hx : x ∈ List.enumFrom n l) : n ≤ x.1 := by
  induction l generalizing n with
  | nil => simp [List.enumFrom] at hx
  | cons a l ih =>
    rw [List.enumFrom] at hx
    rcases List.mem_cons.mp hx with rfl | hx2
    · exact le_refl n
    · exact le_trans (Nat.le_succ n) (ih (n + 1) hx2)

theorem pairwise_fst_lt_enumFrom {α : Type} (n : Nat) (l : List α) :
    List.Pairwise (fun a b : Nat × α => a.1 < b.1) (List.enumFrom n l) := by
  induction l generalizing n with
  | nil => exact List.Pairwise.nil
  | cons a l ih =>
    rw [List.enumFrom]
    refine List.pairwise_cons.mpr ⟨?_, ih (n + 1)⟩
    intro x hx
    exact lt_of_lt_of_le (Nat.lt_succ_self n) (le_fst_of_mem_enumFrom (n + 1) l x hx)

/-- C3: for every key with an existing partition, query returns results sorted
by descending similarity score, equal scores ordered by earlier insertion into
the partition, and every returned score lies in [0, 1]. -/
theorem c3_query_ranked (sim : Vec → Vec → ℚ) (emb : String → Vec) (m : IndexManager)
    (key : IdxKey) (part : IndexPartition) (text : String) (k : Nat)
    (hkey : lookupPartition m key = some part) :
    imQuery sim emb m key text k
      = (annotatedQuery sim emb part text k).map (fun t => SimilarityResult.mk t.2.1 t.2.2) ∧
    List.Pairwise RankBefore (annotatedQuery sim emb part text k) ∧
    ∀ r ∈ imQuery sim emb m key text k, 0 ≤ r.score ∧ r.score ≤ 1 := by
  have h1 : imQuery sim emb m key text k
      = (annotatedQuery sim emb part text k).map (fun t => SimilarityResult.mk t.2.1 t.2.2) := by
    rw [imQuery, hkey]
    rfl
  have h2 : List.Pairwise RankBefore (annotatedQuery sim emb part text k) := by
    rw [annotatedQuery]
    refine List.Pairwise.sublist (List.take_sublist _ _) ?_
    refine pairwise_sortRanked _ ?_
    refine List.Pairwise.map _ (fun a b h => h) ?_
    exact pairwise_fst_lt_enumFrom 0 part.vectors
  refine ⟨h1, h2, ?_⟩
  intro r hr
  rw [h1] at hr
  rcases List.mem_map.mp hr with ⟨t, ht, rfl⟩
  have ht2 : t ∈ sortRanked ((part.vectors.enum).map
      (fun p => (p.1, p.2.1, clamp01 (sim (emb text) p.2.2)))) :=
    List.mem_of_mem_take (by simpa [annotatedQuery] using ht)
  rcases List.mem_map.mp ((mem_sortRanked _ _).mp ht2) with ⟨p, hp, hpt⟩
  have hscore : t.2.2 = clamp01 (sim (emb text) p.2.2) := by rw [← hpt]
  show 0 ≤ t.2.2 ∧ t.2.2 ≤ 1
  rw [hscore, clamp01]
  exact ⟨le_min zero_le_one (le_max_left 0 _), min_le_left 1 _⟩

theorem c3_witness :
    lookupPartition [(("sub1", "submission"), IndexPartition.mk [(1, [1]), (2, [0])])]
        ("sub1", "submission") = some (IndexPartition.mk [(1, [1]), (2, [0])]) ∧
    List.Pairwise RankBefore
      (annotatedQuery (fun v w => ((v.zip w).map (fun p => p.1 * p.2)).sum)
        (fun _ => [1]) (IndexPartition.mk [(1, [1]), (2, [0])]) "hello" 2) ∧
    ∀ r ∈ imQuery (fun v w => ((v.zip w).map (fun p => p.1 * p.2)).sum) (fun _ => [1])
        [(("sub1", "submission"), IndexPartition.mk [(1, [1]), (2, [0])])]
        ("sub1", "submission") "hello" 2, 0 ≤ r.score ∧ r.score ≤ 1 := by
  have h := c3_query_ranked (fun v w => ((v.zip w).map (fun p => p.1 * p.2)).sum)
    (fun _ => [1]) [(("sub1", "submission"), IndexPartition.mk [(1, [1]), (2, [0])])]
    ("sub1", "submission") (IndexPartition.mk [(1, [1]), (2, [0])]) "hello" 2 (by decide)
  exact ⟨by decide, h.2.1, h.2.2⟩

/-- C5: for every key with no existing partition, query returns the empty
sequence and neither returns nor raises an error (the model is a total
function into result lists). -/
theorem c5_missing_key_empty (sim : Vec → Vec → ℚ) (emb : String → Vec) (m : IndexManager)
    (key : IdxKey) (text : String) (k : Nat) (hkey : lookupPartition m key = none) :
    imQuery sim emb m key text k = [] := by
  rw [imQuery, hkey]
  rfl

theorem c5_witness :
    lookupPartition ([] : IndexManager) ("sub1", "submission") = none ∧
    imQuery (fun _ _ => 0) (fun _ => []) ([] : IndexManager) ("sub1", "submission") "hello" 5
      = [] :=
  ⟨rfl, c5_missing_key_empty _ _ _ _ _ _ rfl⟩

end AutoMod
